import Mathlib

/-!
Verification of the go-blog repository's core logic against its
natural-language specification.  The Go sources are shallowly embedded:
pure string manipulation becomes functions on `List Char` / `String`,
fallible operations return `Except String`, time instants are rationals
measured in days, and the repository collaborators are passed in as
explicit function or list parameters.
-/

set_option linter.unusedVariables false

namespace GoBlog

/-! ## Slug generator (src/internal/utils/slug.go, GenerateSlug) -/

/-- Characters the slug regex `[^a-z0-9]+` keeps: lowercase ASCII letters
and ASCII digits. -/
def isSlugChar (c : Char) : Bool :=
  (('a' ≤ c) && (c ≤ 'z')) || (('0' ≤ c) && (c ≤ '9'))

/-- Worker for `replaceRuns`: the flag records whether the previous
character belonged to a run that has already been replaced. -/
def replaceRunsAux (p : Char → Bool) (r : Char) : Bool → List Char → List Char
  | _, [] => []
  | inRun, c :: rest =>
    if p c then
      if inRun then replaceRunsAux p r true rest
      else r :: replaceRunsAux p r true rest
    else c :: replaceRunsAux p r false rest

/-- Embedding of Go `regexp.ReplaceAllString` for a character-class regex
`[class]+`: every maximal run of characters satisfying `p` is replaced by
the single character `r`. -/
def replaceRuns (p : Char → Bool) (r : Char) (l : List Char) : List Char :=
  replaceRunsAux p r false l

/-- Drop the longest suffix of characters satisfying `p` (the right half
of Go `strings.Trim`). -/
def dropWhileEnd (p : Char → Bool) : List Char → List Char
  | [] => []
  | c :: t =>
    let t2 := dropWhileEnd p t
    if t2.isEmpty && p c then [] else c :: t2

/-- Embedding of Go `strings.Trim(s, cutset)` for a one-character cutset
given as the predicate `p`: strip matching characters from both ends. -/
def trimBy (p : Char → Bool) (l : List Char) : List Char :=
  dropWhileEnd p (l.dropWhile p)

/-- Embedding of Go `strings.TrimSuffix(s, r)` for a one-character
suffix `r`: remove one trailing `r` if present. -/
def trimOneSuffix (r : Char) (l : List Char) : List Char :=
  if l.getLast? = some r then l.dropLast else l

/-- Embedding of `utils.GenerateSlug` on character lists.  Go's
`strings.ToLower` becomes `Char.toLower` (the characters that survive the
next step are ASCII, where the two agree); the Go byte-length `len` agrees
with the character count because after `replaceRuns` every character is
ASCII. -/
def generateSlugList (text : List Char) : List Char :=
  let s1 := text.map Char.toLower
  let s2 := replaceRuns (fun c => !(isSlugChar c)) '-' s1
  let s3 := trimBy (fun c => c == '-') s2
  if 100 < s3.length then trimOneSuffix '-' (s3.take 100) else s3

/-- Embedding of `utils.GenerateSlug` (src/internal/utils/slug.go). -/
def generateSlug (text : String) : String :=
  ⟨generateSlugList text.toList⟩

example : generateSlug "Hello, World!" = "hello-world" := by decide
example : generateSlug "  --  " = "" := by decide
example : generateSlug "Go" = "go" := by decide

/-! Lemmas about `replaceRuns`, the trims, and the slug output. -/

lemma mem_replaceRunsAux {p : Char → Bool} {r : Char} {b : Bool} {l : List Char} {c : Char}
    (h : c ∈ replaceRunsAux p r b l) : c = r ∨ (p c = false ∧ c ∈ l) := by
  induction l generalizing b with
  | nil => simp [replaceRunsAux] at h
  | cons x t ih =>
    rw [replaceRunsAux] at h
    by_cases hx : p x
    · rw [if_pos hx] at h
      cases b with
      | true =>
        rw [if_pos rfl] at h
        rcases ih h with h1 | h2
        · exact Or.inl h1
        · exact Or.inr ⟨h2.1, List.mem_cons_of_mem _ h2.2⟩
      | false =>
        rw [if_neg (by simp)] at h
        rcases List.mem_cons.1 h with h1 | h1
        · exact Or.inl h1
        · rcases ih h1 with h2 | h3
          · exact Or.inl h2
          · exact Or.inr ⟨h3.1, List.mem_cons_of_mem _ h3.2⟩
    · rw [if_neg hx] at h
      rcases List.mem_cons.1 h with h1 | h1
      · subst h1
        exact Or.inr ⟨by simpa using hx, List.mem_cons_self _ _⟩
      · rcases ih h1 with h2 | h3
        · exact Or.inl h2
        · exact Or.inr ⟨h3.1, List.mem_cons_of_mem _ h3.2⟩

lemma head?_replaceRunsAux_true {p : Char → Bool} {r : Char} {l : List Char} {c : Char}
    (h : (replaceRunsAux p r true l).head? = some c) : p c = false := by
  induction l with
  | nil => simp [replaceRunsAux] at h
  | cons x t ih =>
    rw [replaceRunsAux] at h
    by_cases hx : p x
    · rw [if_pos hx, if_pos rfl] at h
      exact ih h
    · rw [if_neg hx] at h
      simp only [List.head?_cons, Option.some.injEq] at h
      subst h
      simpa using hx

lemma chain_replaceRunsAux {p : Char → Bool} {r : Char} (hr : p r = true) (b : Bool)
    (l : List Char) :
    List.Chain' (fun a c => ¬(a = r ∧ c = r)) (replaceRunsAux p r b l) := by
  induction l generalizing b with
  | nil => simp [replaceRunsAux]
  | cons x t ih =>
    rw [replaceRunsAux]
    by_cases hx : p x
    · rw [if_pos hx]
      cases b with
      | true => rw [if_pos rfl]; exact ih true
      | false =>
        rw [if_neg (by simp)]
        refine List.chain'_cons'.2 ⟨?_, ih true⟩
        intro y hy h2
        have := head?_replaceRunsAux_true hy
        rw [h2.2] at this
        rw [this] at hr
        exact Bool.false_ne_true hr
    · rw [if_neg hx]
      refine List.chain'_cons'.2 ⟨?_, ih false⟩
      intro y hy h2
      rw [h2.1] at hx
      exact hx hr

lemma head?_dropWhile_eq {p : Char → Bool} {l : List Char} {c : Char}
    (h : (List.dropWhile p l).head? = some c) : p c = false := by
  have h2 := List.head?_dropWhile_not p l
  rw [h] at h2
  exact h2

lemma mem_dropWhileEnd {p : Char → Bool} {l : List Char} {c : Char}
    (h : c ∈ dropWhileEnd p l) : c ∈ l := by
  induction l with
  | nil => simpa [dropWhileEnd] using h
  | cons x t ih =>
    rw [dropWhileEnd] at h
    by_cases hc : (dropWhileEnd p t).isEmpty && p x
    · rw [if_pos hc] at h
      simp at h
    · rw [if_neg hc] at h
      rcases List.mem_cons.1 h with h1 | h1
      · exact h1 ▸ List.mem_cons_self _ _
      · exact List.mem_cons_of_mem _ (ih h1)

lemma getLast?_dropWhileEnd {p : Char → Bool} {l : List Char} {c : Char}
    (h : (dropWhileEnd p l).getLast? = some c) : p c = false := by
  induction l with
  | nil => simp [dropWhileEnd] at h
  | cons x t ih =>
    rw [dropWhileEnd] at h
    by_cases hc : (dropWhileEnd p t).isEmpty && p x
    · rw [if_pos hc] at h
      simp at h
    · rw [if_neg hc] at h
      rcases he : dropWhileEnd p t with _ | ⟨y, t2⟩
      · rw [he] at h hc
        simp only [List.getLast?_singleton, Option.some.injEq] at h
        subst h
        simpa using hc
      · rw [he] at h
        rw [List.getLast?_cons_cons] at h
        exact ih (he ▸ h)

lemma head?_dropWhileEnd {p : Char → Bool} {l : List Char} {c : Char}
    (h : (dropWhileEnd p l).head? = some c) : l.head? = some c := by
  cases l with
  | nil => simp [dropWhileEnd] at h
  | cons x t =>
    rw [dropWhileEnd] at h
    by_cases hc : (dropWhileEnd p t).isEmpty && p x
    · rw [if_pos hc] at h
      simp at h
    · rw [if_neg hc] at h
      simpa using h

lemma chain_dropWhileEnd {R : Char → Char → Prop} {p : Char → Bool} {l : List Char}
    (h : List.Chain' R l) : List.Chain' R (dropWhileEnd p l) := by
  induction l with
  | nil => simpa [dropWhileEnd] using h
  | cons x t ih =>
    rw [dropWhileEnd]
    by_cases hc : (dropWhileEnd p t).isEmpty && p x
    · rw [if_pos hc]; simp
    · rw [if_neg hc]
      rcases List.chain'_cons'.1 h with ⟨hx, ht⟩
      refine List.chain'_cons'.2 ⟨?_, ih ht⟩
      intro y hy
      exact hx y (head?_dropWhileEnd hy)

lemma mem_trimOneSuffix {r : Char} {l : List Char} {c : Char}
    (h : c ∈ trimOneSuffix r l) : c ∈ l := by
  rw [trimOneSuffix] at h
  by_cases hg : l.getLast? = some r
  · rw [if_pos hg, List.dropLast_eq_take] at h
    exact List.mem_of_mem_take h
  · rw [if_neg hg] at h
    exact h

lemma head?_take_eq {l : List Char} {n : ℕ} {c : Char}
    (h : (l.take n).head? = some c) : l.head? = some c := by
  cases l <;> cases n <;> simp_all

lemma head?_trimOneSuffix {r : Char} {l : List Char} {c : Char}
    (h : (trimOneSuffix r l).head? = some c) : l.head? = some c := by
  rw [trimOneSuffix] at h
  by_cases hg : l.getLast? = some r
  · rw [if_pos hg, List.dropLast_eq_take] at h
    exact head?_take_eq h
  · rw [if_neg hg] at h
    exact h

lemma length_trimOneSuffix_le {r : Char} (l : List Char) :
    (trimOneSuffix r l).length ≤ l.length := by
  rw [trimOneSuffix]
  by_cases hg : l.getLast? = some r
  · rw [if_pos hg]
    have := l.length_dropLast
    omega
  · rw [if_neg hg]

lemma eq_dropLast_append_of_getLast? :
    ∀ {m : List Char} {a : Char}, m.getLast? = some a → m = m.dropLast ++ [a]
  | [], a, h => by simp at h
  | [x], a, h => by
    simp only [List.getLast?_singleton, Option.some.injEq] at h
    subst h
    rfl
  | x :: y :: t, a, h => by
    rw [List.getLast?_cons_cons] at h
    have ih := eq_dropLast_append_of_getLast? (m := y :: t) h
    have h2 : (x :: y :: t).dropLast = x :: (y :: t).dropLast := rfl
    rw [h2, List.cons_append, ← ih]

lemma getLast?_trimOneSuffix_chain {r : Char} {l : List Char}
    (h : List.Chain' (fun a c => ¬(a = r ∧ c = r)) l) :
    (trimOneSuffix r l).getLast? ≠ some r := by
  rw [trimOneSuffix]
  by_cases hg : l.getLast? = some r
  · rw [if_pos hg]
    intro h2
    have e1 := eq_dropLast_append_of_getLast? hg
    have e2 := eq_dropLast_append_of_getLast? h2
    have hsuf : [r, r] <:+ l := by
      refine ⟨l.dropLast.dropLast, ?_⟩
      conv_rhs => rw [e1, e2]
      simp
    have hch := h.suffix hsuf
    rcases List.chain'_cons'.1 hch with ⟨hrel, _⟩
    exact hrel r (by simp) ⟨rfl, rfl⟩
  · rw [if_neg hg]
    exact hg

lemma whitespace_toLower_not_slug {c : Char} (h : c.isWhitespace = true) :
    isSlugChar (Char.toLower c) = false := by
  have hw : c = ' ' ∨ c = '\t' ∨ c = '\r' ∨ c = '\n' := by
    simp only [Char.isWhitespace, decide_eq_true_eq, Bool.or_eq_true] at h
    tauto
  rcases hw with h | h | h | h <;> subst h <;> decide

lemma replaceRunsAux_true_all {p : Char → Bool} {r : Char} {l : List Char}
    (h : ∀ c ∈ l, p c = true) : replaceRunsAux p r true l = [] := by
  induction l with
  | nil => rfl
  | cons x t ih =>
    rw [replaceRunsAux, if_pos (h x (List.mem_cons_self _ _)), if_pos rfl]
    exact ih fun c hc => h c (List.mem_cons_of_mem _ hc)

lemma replaceRuns_all {p : Char → Bool} {r : Char} {l : List Char}
    (h : ∀ c ∈ l, p c = true) : replaceRuns p r l = [] ∨ replaceRuns p r l = [r] := by
  cases l with
  | nil => exact Or.inl rfl
  | cons x t =>
    right
    rw [replaceRuns, replaceRunsAux, if_pos (h x (List.mem_cons_self x t)),
      if_neg (by simp), replaceRunsAux_true_all fun c hc => h c (List.mem_cons_of_mem _ hc)]

/-- C2: for every input, `GenerateSlug` returns a string over `[a-z0-9-]`
that never starts or ends with a hyphen and has length at most 100; the
embedding is a total Lean function (the Go code has no failure path), and
whitespace-only (in particular empty) input yields the empty string. -/
theorem claim_C2_generateSlug (text : String) :
    (∀ c ∈ (generateSlug text).toList, isSlugChar c = true ∨ c = '-')
    ∧ (generateSlug text).toList.head? ≠ some '-'
    ∧ (generateSlug text).toList.getLast? ≠ some '-'
    ∧ (generateSlug text).length ≤ 100
    ∧ ((∀ c ∈ text.toList, c.isWhitespace = true) → generateSlug text = "") := by
  have hout : (generateSlug text).toList = generateSlugList text.toList := rfl
  have hlen : (generateSlug text).length = (generateSlugList text.toList).length := rfl
  set s1 := text.toList.map Char.toLower with hs1
  set s2 := replaceRuns (fun c => !(isSlugChar c)) '-' s1 with hs2
  set s3 := trimBy (fun c => c == '-') s2 with hs3
  have hdef : generateSlugList text.toList
      = if 100 < s3.length then trimOneSuffix '-' (s3.take 100) else s3 := rfl
  have hmem_s2 : ∀ c ∈ s2, isSlugChar c = true ∨ c = '-' := by
    intro c hc
    rcases mem_replaceRunsAux hc with h | h
    · exact Or.inr h
    · exact Or.inl (by simpa using h.1)
  have hmem_s3 : ∀ c ∈ s3, c ∈ s2 := by
    intro c hc
    exact (List.dropWhile_suffix _).mem (mem_dropWhileEnd hc)
  have hchain : List.Chain' (fun a c => ¬(a = '-' ∧ c = '-')) s3 := by
    have h2 : List.Chain' (fun a c => ¬(a = '-' ∧ c = '-')) s2 :=
      chain_replaceRunsAux (by decide) false s1
    exact chain_dropWhileEnd (h2.suffix (List.dropWhile_suffix _))
  have hhead : s3.head? ≠ some '-' := by
    intro h
    have h2 := head?_dropWhileEnd h
    have h3 := head?_dropWhile_eq h2
    simp at h3
  have hlast : s3.getLast? ≠ some '-' := by
    intro h
    have h2 := getLast?_dropWhileEnd h
    simp at h2
  refine ⟨?_, ?_, ?_, ?_, ?_⟩
  · intro c hc
    rw [hout, hdef] at hc
    by_cases h100 : 100 < s3.length
    · rw [if_pos h100] at hc
      exact hmem_s2 c (hmem_s3 c (List.mem_of_mem_take (mem_trimOneSuffix hc)))
    · rw [if_neg h100] at hc
      exact hmem_s2 c (hmem_s3 c hc)
  · rw [hout, hdef]
    by_cases h100 : 100 < s3.length
    · rw [if_pos h100]
      intro h
      exact hhead (head?_take_eq (head?_trimOneSuffix h))
    · rw [if_neg h100]
      exact hhead
  · rw [hout, hdef]
    by_cases h100 : 100 < s3.length
    · rw [if_pos h100]
      exact getLast?_trimOneSuffix_chain (hchain.take 100)
    · rw [if_neg h100]
      exact hlast
  · rw [hlen, hdef]
    by_cases h100 : 100 < s3.length
    · rw [if_pos h100]
      calc (trimOneSuffix '-' (s3.take 100)).length
          ≤ (s3.take 100).length := length_trimOneSuffix_le _
        _ ≤ 100 := by simpa using List.length_take_le 100 s3
    · rw [if_neg h100]
      omega
  · intro hws
    have hall : ∀ c ∈ s1, (fun c => !(isSlugChar c)) c = true := by
      intro c hc
      rcases List.mem_map.1 hc with ⟨d, hd, rfl⟩
      simpa using whitespace_toLower_not_slug (hws d hd)
    have hs2e : s2 = [] ∨ s2 = ['-'] := by
      have h2 := replaceRuns_all (r := '-') hall
      rw [← hs2] at h2
      exact h2
    have hs3e : s3 = [] := by
      rcases hs2e with h | h <;> rw [hs3, h] <;> rfl
    show String.mk (generateSlugList text.toList) = ""
    rw [hdef, hs3e]
    rfl

/-- Witness for C2 at concrete inputs: the whitespace-only clause applied
to the string of one space and one tab. -/
theorem claim_C2_generateSlug_witness : generateSlug " \t " = "" :=
  (claim_C2_generateSlug " \t ").2.2.2.2 (by decide)

/-! ## Uniqueness resolver (generateUniqueSlug in
src/internal/services/article_service.go lines 382-413 and
src/internal/services/tag_service.go lines 228-259; the two functions are
textually identical up to the repository used for the existence check,
which is abstracted here as the injected predicate `taken`). -/

/-- Candidate slug formed by `fmt.Sprintf("%s-%d", baseSlug, counter)`. -/
def slugCand (base : String) (k : ℕ) : String :=
  base ++ "-" ++ toString k

/-- Embedding of the `for` loop of `generateUniqueSlug`: `taken slug`
models `GetBySlug(slug)` succeeding, `taken slug = false` models
`gorm.ErrRecordNotFound`; the loop aborts with the exhaustion error as
soon as the incremented counter exceeds 1000 (before re-checking the slug
just formed).  The repository-failure branch (an error other than
not-found) is not modelled.  The fuel argument only makes the recursion
structural: the loop is entered with `fuel = 1001 - counter`, which the
counter bound keeps strictly positive, so the fuel-exhaustion branch is
unreachable (it conservatively returns the same exhaustion error). -/
def resolveSlugLoop (base : String) (taken : String → Bool) :
    ℕ → String → ℕ → Except String String
  | 0, _, _ => Except.error "unable to generate unique slug"
  | fuel + 1, slug, counter =>
    if taken slug = false then Except.ok slug
    else if 1000 < counter + 1 then Except.error "unable to generate unique slug"
    else resolveSlugLoop base taken fuel (slugCand base counter) (counter + 1)

/-- Embedding of `generateUniqueSlug` from the base slug on: the loop is
entered with `slug := baseSlug` and `counter := 1`. -/
def resolveUniqueSlug (base : String) (taken : String → Bool) : Except String String :=
  if base = "" then Except.error "cannot generate slug from title"
  else resolveSlugLoop base taken 1000 base 1

/-- Embedding of the full `generateUniqueSlug(title)` including the
initial `utils.GenerateSlug` call. -/
def generateUniqueSlug (title : String) (taken : String → Bool) : Except String String :=
  resolveUniqueSlug (generateSlug title) taken

/-- Existence check reporting exactly `base` and `base-1 .. base-N` as
taken (the hypothesis of claim C3). -/
def takenUpTo (base : String) (N : ℕ) : String → Bool :=
  fun s => s == base || (List.range N).any fun i => s == slugCand base (i + 1)

lemma resolveSlugLoop_ok (base : String) (taken : String → Bool) (N : ℕ) (hN : N ≤ 998)
    (hfree : taken (slugCand base (N + 1)) = false) :
    ∀ (d j : ℕ), j + d = N + 1 → 1 ≤ j →
      (∀ k, j ≤ k → k ≤ N → taken (slugCand base k) = true) →
      resolveSlugLoop base taken (1000 - j) (slugCand base j) (j + 1)
        = Except.ok (slugCand base (N + 1)) := by
  intro d
  induction d with
  | zero =>
    intro j hsum hj htaken
    have hjN : j = N + 1 := by omega
    subst hjN
    rw [show 1000 - (N + 1) = (999 - (N + 1)) + 1 from by omega,
      resolveSlugLoop, if_pos hfree]
  | succ d ih =>
    intro j hsum hj htaken
    have hjN : j ≤ N := by omega
    rw [show 1000 - j = (999 - j) + 1 from by omega,
      resolveSlugLoop, if_neg (by simp [htaken j (Nat.le_refl j) hjN]),
      if_neg (by omega), show 999 - j = 1000 - (j + 1) from by omega]
    exact ih (j + 1) (by omega) (by omega) fun k hk1 hk2 => htaken k (by omega) hk2

lemma resolveSlugLoop_error (base : String) (taken : String → Bool) :
    ∀ (d j : ℕ) (slug : String), j + d = 1000 → 1 ≤ j → taken slug = true →
      (∀ k, j ≤ k → k ≤ 999 → taken (slugCand base k) = true) →
      resolveSlugLoop base taken (1001 - j) slug j
        = Except.error "unable to generate unique slug" := by
  intro d
  induction d with
  | zero =>
    intro j slug hsum hj htk htaken
    have : j = 1000 := by omega
    subst this
    rw [show 1001 - 1000 = 0 + 1 from by omega, resolveSlugLoop,
      if_neg (by simp [htk]), if_pos (by omega)]
  | succ d ih =>
    intro j slug hsum hj htk htaken
    rw [show 1001 - j = (1000 - j) + 1 from by omega, resolveSlugLoop,
      if_neg (by simp [htk]), if_neg (by omega),
      show 1000 - j = 1001 - (j + 1) from by omega]
    exact ih (j + 1) (slugCand base j) (by omega) (by omega)
      (htaken j (Nat.le_refl j) (by omega))
      fun k hk1 hk2 => htaken k (by omega) hk2

/-- C3 (amended): if the existence check reports `base` and
`base-1 .. base-N` as taken and `base-(N+1)` as free, the resolver
returns `base-(N+1)` provided `N ≤ 998`; the unamended claim (every
`N ≥ 0`) fails at `N = 999`, where the 1000-attempt bound aborts the
loop before `base-1000` is ever checked. -/
theorem claim_C3_uniqueSlug (base : String) (taken : String → Bool) (N : ℕ)
    (hbase : base ≠ "") (hN : N ≤ 998)
    (htakenBase : taken base = true)
    (htaken : ∀ k, 1 ≤ k → k ≤ N → taken (slugCand base k) = true)
    (hfree : taken (slugCand base (N + 1)) = false) :
    resolveUniqueSlug base taken = Except.ok (slugCand base (N + 1)) := by
  rw [resolveUniqueSlug, if_neg hbase,
    show (1000 : ℕ) = 999 + 1 from rfl, resolveSlugLoop,
    if_neg (by simp [htakenBase]), if_neg (by omega),
    show (999 : ℕ) = 1000 - 1 from rfl]
  exact resolveSlugLoop_ok base taken N hN hfree N 1 (by omega) (Nat.le_refl 1) htaken

/-- Witness for C3 at `base = "a"`, `N = 1`. -/
theorem claim_C3_uniqueSlug_witness :
    resolveUniqueSlug "a" (fun s => s == "a" || s == "a-1") = Except.ok (slugCand "a" 2) :=
  claim_C3_uniqueSlug "a" (fun s => s == "a" || s == "a-1") 1 (by decide) (by omega)
    (by decide)
    (fun k hk1 hk2 => by
      have hk : k = 1 := by omega
      subst hk
      decide)
    (by decide)

/-- C3 counterexample: with exactly `a` and `a-1 .. a-999` taken
(`N = 999`), the resolver reports exhaustion instead of returning
`a-1000` as the claim, read for every `N ≥ 0`, requires. -/
theorem claim_C3_counterexample :
    resolveUniqueSlug "a" (takenUpTo "a" 999) = Except.error "unable to generate unique slug"
    ∧ resolveUniqueSlug "a" (takenUpTo "a" 999) ≠ Except.ok (slugCand "a" 1000) := by
  have h999 : ∀ k, 1 ≤ k → k ≤ 999 → takenUpTo "a" 999 (slugCand "a" k) = true := by
    intro k h1 h2
    simp only [takenUpTo]
    rw [Bool.or_eq_true]
    refine Or.inr ?_
    refine List.any_eq_true.2 ⟨k - 1, List.mem_range.2 (by omega), ?_⟩
    have hk : k - 1 + 1 = k := by omega
    rw [hk]
    exact beq_self_eq_true _
  have herr : resolveUniqueSlug "a" (takenUpTo "a" 999)
      = Except.error "unable to generate unique slug" := by
    rw [resolveUniqueSlug, if_neg (by decide),
      show (1000 : ℕ) = 1001 - 1 from rfl]
    exact resolveSlugLoop_error "a" _ 999 1 "a" (by omega) (by omega) (by decide) h999
  exact ⟨herr, by rw [herr]; intro h; exact Except.noConfusion h⟩

/-! ## Article status operations
(src/internal/services/article_service.go: Create, Update, changeStatus,
Publish, Unpublish, Archive).  Time instants are rationals; an article is
reduced to the fields these operations read or write, the remaining
fields being carried through every branch untouched.  The repository
round-trips (`GetByID`, `Update`) are modelled as the identity on the
fetched article, and the returned `Bool` records whether
`articleRepo.Update` was invoked. -/

inductive ArticleStatus where
  | draft
  | published
  | archived
deriving DecidableEq

structure Article where
  authorId : ℕ
  status : ArticleStatus
  publishedAt : Option ℚ
deriving DecidableEq

/-- Embedding of `ArticleService.changeStatus` (lines 347-379): the
unauthorized branch errors, the equal-status branch returns the article
with no update, otherwise the status is set, the publish timestamp is
set if entering `published` with a nil timestamp, and the update runs. -/
def changeStatus (a : Article) (authorID : ℕ) (status : ArticleStatus) (now : ℚ) :
    Except String (Article × Bool) :=
  if a.authorId ≠ authorID then
    Except.error "unauthorized: you can only modify your own articles"
  else if a.status = status then Except.ok (a, false)
  else
    let a1 : Article := { a with status := status }
    let a2 : Article :=
      if status = ArticleStatus.published ∧ a1.publishedAt = none then
        { a1 with publishedAt := some now }
      else a1
    Except.ok (a2, true)

/-- Embedding of `ArticleService.Publish`. -/
def publish (a : Article) (authorID : ℕ) (now : ℚ) : Except String (Article × Bool) :=
  changeStatus a authorID ArticleStatus.published now

/-- Embedding of `ArticleService.Unpublish` (sets to draft). -/
def unpublish (a : Article) (authorID : ℕ) (now : ℚ) : Except String (Article × Bool) :=
  changeStatus a authorID ArticleStatus.draft now

/-- Embedding of `ArticleService.Archive`. -/
def archiveArticle (a : Article) (authorID : ℕ) (now : ℚ) : Except String (Article × Bool) :=
  changeStatus a authorID ArticleStatus.archived now

/-- Embedding of the status-change fragment of `ArticleService.Update`
(lines 240-252): `none` models the empty `req.Status`. -/
def updateStatus (a : Article) (reqStatus : Option ArticleStatus) (now : ℚ) : Article :=
  match reqStatus with
  | none => a
  | some st =>
    if a.status ≠ st then
      let old := a.status
      let a1 : Article := { a with status := st }
      if st = ArticleStatus.published ∧ old ≠ ArticleStatus.published
          ∧ a1.publishedAt = none then
        { a1 with publishedAt := some now }
      else a1
    else a

/-- Embedding of the status handling of `ArticleService.Create`
(lines 106-115 plus the `validateCreateRequest` rule that only `draft`
and `published` are accepted on creation; `none` models the empty
`req.Status`, defaulted to draft). -/
def createArticle (authorID : ℕ) (reqStatus : Option ArticleStatus) (now : ℚ) :
    Except String Article :=
  match reqStatus with
  | some ArticleStatus.archived =>
    Except.error "status must be either draft or published"
  | _ =>
    let status := reqStatus.getD ArticleStatus.draft
    Except.ok
      { authorId := authorID
        status := status
        publishedAt := if status = ArticleStatus.published then some now else none }

/-- One step of the article lifecycle as the persisted state evolves: a
`changeStatus` call (covering Publish, Unpublish and Archive) or the
status part of an Update.  An errored `changeStatus` leaves the stored
article unchanged. -/
inductive ArticleOp where
  | change (uid : ℕ) (st : ArticleStatus) (now : ℚ)
  | update (st : Option ArticleStatus) (now : ℚ)

def applyOp (a : Article) (op : ArticleOp) : Article :=
  match op with
  | ArticleOp.change uid st now =>
    match changeStatus a uid st now with
    | Except.ok (a2, _) => a2
    | Except.error _ => a
  | ArticleOp.update st now => updateStatus a st now

lemma publishedAt_applyOp_retained (a : Article) (op : ArticleOp) (t : ℚ)
    (h : a.publishedAt = some t) : (applyOp a op).publishedAt = some t := by
  cases op with
  | change uid st now =>
    rw [applyOp, changeStatus]
    by_cases h1 : a.authorId ≠ uid
    · rw [if_pos h1]; exact h
    · rw [if_neg h1]
      by_cases h2 : a.status = st
      · rw [if_pos h2]; exact h
      · rw [if_neg h2]
        simp only
        by_cases h3 : st = ArticleStatus.published ∧ a.publishedAt = none
        · rw [h] at h3
          exact absurd h3.2 (Option.some_ne_none t)
        · rw [if_neg h3]; exact h
  | update st now =>
    rw [applyOp, updateStatus.eq_def]
    cases st with
    | none => exact h
    | some s =>
      simp only
      by_cases h1 : a.status ≠ s
      · rw [if_pos h1]
        by_cases h2 : s = ArticleStatus.published ∧ a.status ≠ ArticleStatus.published
            ∧ a.publishedAt = none
        · rw [h] at h2
          exact absurd h2.2.2 (Option.some_ne_none t)
        · rw [if_neg h2]; exact h
      · rw [if_neg h1]; exact h

lemma inv_applyOp (a : Article) (op : ArticleOp)
    (h : a.status = ArticleStatus.published → a.publishedAt ≠ none) :
    (applyOp a op).status = ArticleStatus.published → (applyOp a op).publishedAt ≠ none := by
  cases op with
  | change uid st now =>
    rw [applyOp, changeStatus]
    by_cases h1 : a.authorId ≠ uid
    · rw [if_pos h1]; exact h
    · rw [if_neg h1]
      by_cases h2 : a.status = st
      · rw [if_pos h2]; exact h
      · rw [if_neg h2]
        simp only
        by_cases h3 : st = ArticleStatus.published ∧ a.publishedAt = none
        · rw [if_pos h3]
          intro _
          exact Option.some_ne_none now
        · rw [if_neg h3]
          intro hst
          rcases Decidable.not_and_iff_or_not.1 h3 with h4 | h4
          · exact absurd hst h4
          · exact h4
  | update st now =>
    rw [applyOp, updateStatus.eq_def]
    cases st with
    | none => exact h
    | some s =>
      simp only
      by_cases h1 : a.status ≠ s
      · rw [if_pos h1]
        by_cases h2 : s = ArticleStatus.published ∧ a.status ≠ ArticleStatus.published
            ∧ a.publishedAt = none
        · rw [if_pos h2]
          intro _
          exact Option.some_ne_none now
        · rw [if_neg h2]
          intro hst
          simp only at hst
          subst hst
          rcases Decidable.not_and_iff_or_not.1 h2 with h4 | h4
          · exact absurd rfl h4
          · rcases Decidable.not_and_iff_or_not.1 h4 with h5 | h5
            · exact absurd h1 (by simpa using fun h6 => h5 h6)
            · exact h5
      · rw [if_neg h1]; exact h

lemma publishedAt_changed_applyOp (a : Article) (op : ArticleOp)
    (h : (applyOp a op).publishedAt ≠ a.publishedAt) :
    a.publishedAt = none ∧ (applyOp a op).status = ArticleStatus.published
      ∧ a.status ≠ ArticleStatus.published := by
  cases op with
  | change uid st now =>
    rw [applyOp, changeStatus] at h ⊢
    by_cases h1 : a.authorId ≠ uid
    · rw [if_pos h1] at h
      exact absurd rfl h
    · rw [if_neg h1] at h ⊢
      by_cases h2 : a.status = st
      · rw [if_pos h2] at h
        exact absurd rfl h
      · rw [if_neg h2] at h ⊢
        simp only at h ⊢
        by_cases h3 : st = ArticleStatus.published ∧ a.publishedAt = none
        · rw [if_pos h3] at h ⊢
          exact ⟨h3.2, h3.1, fun hc => h2 (hc.trans h3.1.symm)⟩
        · rw [if_neg h3] at h
          exact absurd rfl h
  | update st now =>
    rw [applyOp, updateStatus.eq_def] at h ⊢
    cases st with
    | none => exact absurd rfl h
    | some s =>
      simp only at h ⊢
      by_cases h1 : a.status ≠ s
      · rw [if_pos h1] at h ⊢
        by_cases h2 : s = ArticleStatus.published ∧ a.status ≠ ArticleStatus.published
            ∧ a.publishedAt = none
        · rw [if_pos h2] at h ⊢
          exact ⟨h2.2.2, h2.1, h2.2.1⟩
        · rw [if_neg h2] at h
          exact absurd rfl h
      · rw [if_neg h1] at h
        exact absurd rfl h

/-- C1: a published article always carries a non-null publish timestamp,
which is set exactly once (on creation with published status, or on the
first transition into published) and retained unchanged by every later
status change, archiving and unpublishing included.  Stated as: the
invariant holds after creation followed by any sequence of operations; a
non-null timestamp survives any operation unchanged; and the timestamp
can only change when it was null and the operation is the first
transition into published. -/
theorem claim_C1_published_timestamp :
    (∀ (uid : ℕ) (rs : Option ArticleStatus) (now : ℚ) (a : Article)
        (ops : List ArticleOp),
        createArticle uid rs now = Except.ok a →
        (ops.foldl applyOp a).status = ArticleStatus.published →
        (ops.foldl applyOp a).publishedAt ≠ none)
    ∧ (∀ (a : Article) (op : ArticleOp) (t : ℚ),
        a.publishedAt = some t → (applyOp a op).publishedAt = some t)
    ∧ (∀ (a : Article) (op : ArticleOp),
        (applyOp a op).publishedAt ≠ a.publishedAt →
        a.publishedAt = none ∧ (applyOp a op).status = ArticleStatus.published
          ∧ a.status ≠ ArticleStatus.published) := by
  refine ⟨?_, publishedAt_applyOp_retained, publishedAt_changed_applyOp⟩
  intro uid rs now a ops hcreate
  have hinv : a.status = ArticleStatus.published → a.publishedAt ≠ none := by
    cases rs with
    | none =>
      simp only [createArticle, Except.ok.injEq] at hcreate
      rw [← hcreate]
      intro hst
      simp [Option.getD] at hst
    | some s =>
      cases s with
      | draft =>
        simp only [createArticle, Except.ok.injEq] at hcreate
        rw [← hcreate]
        intro hst
        simp [Option.getD] at hst
      | published =>
        simp only [createArticle, Except.ok.injEq] at hcreate
        rw [← hcreate]
        intro _
        simp [Option.getD]
      | archived => exact absurd hcreate (by simp [createArticle])
  clear hcreate
  induction ops generalizing a with
  | nil => exact hinv
  | cons op rest ih =>
    rw [List.foldl_cons]
    exact ih (applyOp a op) (inv_applyOp a op hinv)

/-- Witness for C1: an article created as published at time 3, archived
and re-published later, still carries timestamp 3 (in particular a
non-null one). -/
theorem claim_C1_published_timestamp_witness :
    ([ArticleOp.change 1 ArticleStatus.archived 9,
      ArticleOp.change 1 ArticleStatus.published 12].foldl applyOp
        { authorId := 1, status := ArticleStatus.published,
          publishedAt := some 3 }).publishedAt ≠ none :=
  claim_C1_published_timestamp.1 1 (some ArticleStatus.published) 3
    { authorId := 1, status := ArticleStatus.published, publishedAt := some 3 }
    [ArticleOp.change 1 ArticleStatus.archived 9,
     ArticleOp.change 1 ArticleStatus.published 12]
    (by rfl) (by decide)

/-- C10: when the requested status equals the article's current status,
`changeStatus` (and therefore Publish, Unpublish and Archive) returns the
article unchanged and performs no repository update (the `Bool` component
records whether `articleRepo.Update` was invoked). -/
theorem claim_C10_changeStatus_idempotent (a : Article) (uid : ℕ) (now : ℚ)
    (hauth : a.authorId = uid) :
    (∀ st, a.status = st → changeStatus a uid st now = Except.ok (a, false))
    ∧ (a.status = ArticleStatus.published → publish a uid now = Except.ok (a, false))
    ∧ (a.status = ArticleStatus.draft → unpublish a uid now = Except.ok (a, false))
    ∧ (a.status = ArticleStatus.archived →
        archiveArticle a uid now = Except.ok (a, false)) := by
  have hbase : ∀ st, a.status = st → changeStatus a uid st now = Except.ok (a, false) := by
    intro st hst
    rw [changeStatus, if_neg (by simp [hauth]), if_pos hst]
  exact ⟨hbase, fun h => hbase _ h, fun h => hbase _ h, fun h => hbase _ h⟩

/-- Witness for C10: publishing an already-published article. -/
theorem claim_C10_changeStatus_idempotent_witness :
    changeStatus { authorId := 1, status := ArticleStatus.published, publishedAt := some 0 }
      1 ArticleStatus.published 5
      = Except.ok
        ({ authorId := 1, status := ArticleStatus.published, publishedAt := some 0 }, false) :=
  (claim_C10_changeStatus_idempotent _ 1 5 rfl).1 _ rfl


/-! ## Ranking engine
(src/internal/services/statistics_service.go: GetPopularArticles lines
133-182, GetTrendingArticles lines 185-245).  The repository fetch
`articleRepo.List(0, limit*2, {status: published})` is modelled by the
input list of counter snapshots; Go `float64` arithmetic is modelled in
`ℚ` (every quantity the claims speak about is computed exactly in
`float64` for realistic counter sizes); the two `time.Now()` readings
(cutoff and decay) are modelled by the single instant `now`, measured in
days, and `AddDate(0, 0, -days)` as subtraction of `days` days. -/

structure ArticleCounters where
  id : ℕ
  viewCount : ℕ
  likeCount : ℕ
  commentCount : ℕ
  publishedAt : Option ℚ
deriving DecidableEq

structure PopularArticle where
  id : ℕ
  viewCount : ℕ
  likeCount : ℕ
  commentCount : ℕ
  score : ℚ
deriving DecidableEq

structure TrendingArticle where
  id : ℕ
  viewCount : ℕ
  likeCount : ℕ
  commentCount : ℕ
  trendingScore : ℚ
deriving DecidableEq

/-- One comparison-and-swap of the in-place exchange sort: the body of
the inner loop `if a[i].Score < a[j].Score { swap }`.  The Go code only
reaches it with indices in bounds, which the branch condition records. -/
def exchSwap {α : Type} (score : α → ℚ) (l : List α) (i j : ℕ) : List α :=
  if h : i < l.length ∧ j < l.length then
    if score (l.get ⟨i, h.1⟩) < score (l.get ⟨j, h.2⟩) then
      (l.set i (l.get ⟨j, h.2⟩)).set j (l.get ⟨i, h.1⟩)
    else l
  else l

/-- Inner loop `for j := i+1; j < len; j++`.  The fuel argument only
bounds the iteration count so that the recursion is structural; every
call supplies at least `len`, which the loop never exhausts. -/
def exchInnerFuel {α : Type} (score : α → ℚ) : ℕ → List α → ℕ → ℕ → List α
  | 0, l, _, _ => l
  | fuel + 1, l, i, j =>
    if j < l.length then exchInnerFuel score fuel (exchSwap score l i j) i (j + 1) else l

/-- Outer loop `for i := 0; i < len-1; i++`. -/
def exchOuterFuel {α : Type} (score : α → ℚ) : ℕ → List α → ℕ → List α
  | 0, l, _ => l
  | fuel + 1, l, i =>
    if i + 1 < l.length then
      exchOuterFuel score fuel (exchInnerFuel score l.length l i (i + 1)) (i + 1)
    else l

/-- The in-place exchange sort by descending score used by both ranking
functions (statistics_service.go lines 169-175 and 232-238). -/
def sortByScoreDesc {α : Type} (score : α → ℚ) (l : List α) : List α :=
  exchOuterFuel score l.length l 0

/-- The popularity scoring of lines 148-166: score = views×1 + likes×3 +
comments×5. -/
def mkPopular (a : ArticleCounters) : PopularArticle :=
  { id := a.id
    viewCount := a.viewCount
    likeCount := a.likeCount
    commentCount := a.commentCount
    score := (a.viewCount : ℚ) + (a.likeCount : ℚ) * 3 + (a.commentCount : ℚ) * 5 }

/-- Embedding of `GetPopularArticles`: normalize the limit, score every
fetched article, sort descending, truncate to the limit. -/
def getPopularArticles (limit : ℤ) (articles : List ArticleCounters) : List PopularArticle :=
  let lim := if limit ≤ 0 then 10 else limit
  let sorted := sortByScoreDesc PopularArticle.score (articles.map mkPopular)
  if lim < (sorted.length : ℤ) then sorted.take lim.toNat else sorted

/-- Per-article step of `GetTrendingArticles` (lines 206-229): articles
never published, or not published strictly after the cutoff `now - days`
(`PublishedAt.After(cutoffDate)` is a strict comparison), are dropped;
the rest are scored with the time-decay factor
`1 / (1 + daysSincePublished/days)`. -/
def trendingFilter (days : ℤ) (now : ℚ) (a : ArticleCounters) : Option TrendingArticle :=
  let d : ℤ := if days ≤ 0 then 7 else days
  match a.publishedAt with
  | some p =>
    if now - (d : ℚ) < p then
      let daysSincePublished := now - p
      let timeDecay := 1 / (1 + daysSincePublished / (d : ℚ))
      some
        { id := a.id
          viewCount := a.viewCount
          likeCount := a.likeCount
          commentCount := a.commentCount
          trendingScore := ((a.viewCount : ℚ) + (a.likeCount : ℚ) * 3
            + (a.commentCount : ℚ) * 5) * timeDecay }
    else none
  | none => none

/-- Embedding of `GetTrendingArticles`. -/
def getTrendingArticles (limit days : ℤ) (now : ℚ) (articles : List ArticleCounters) :
    List TrendingArticle :=
  let lim := if limit ≤ 0 then 10 else limit
  let sorted := sortByScoreDesc TrendingArticle.trendingScore
    (articles.filterMap (trendingFilter days now))
  if lim < (sorted.length : ℤ) then sorted.take lim.toNat else sorted

lemma mem_exchSwap {α : Type} {score : α → ℚ} {l : List α} {i j : ℕ} {c : α}
    (h : c ∈ exchSwap score l i j) : c ∈ l := by
  rw [exchSwap] at h
  by_cases hb : i < l.length ∧ j < l.length
  · rw [dif_pos hb] at h
    by_cases hlt : score (l.get ⟨i, hb.1⟩) < score (l.get ⟨j, hb.2⟩)
    · rw [if_pos hlt] at h
      rcases List.mem_or_eq_of_mem_set h with h2 | h2
      · rcases List.mem_or_eq_of_mem_set h2 with h3 | h3
        · exact h3
        · subst h3
          exact List.get_mem _ _ _
      · subst h2
        exact List.get_mem _ _ _
    · rw [if_neg hlt] at h
      exact h
  · rw [dif_neg hb] at h
    exact h

lemma mem_exchInnerFuel {α : Type} {score : α → ℚ} {fuel : ℕ} {l : List α} {i j : ℕ} {c : α}
    (h : c ∈ exchInnerFuel score fuel l i j) : c ∈ l := by
  induction fuel generalizing l j with
  | zero => exact h
  | succ fuel ih =>
    rw [exchInnerFuel] at h
    by_cases hj : j < l.length
    · rw [if_pos hj] at h
      exact mem_exchSwap (ih h)
    · rw [if_neg hj] at h
      exact h

lemma mem_exchOuterFuel {α : Type} {score : α → ℚ} {fuel : ℕ} {l : List α} {i : ℕ} {c : α}
    (h : c ∈ exchOuterFuel score fuel l i) : c ∈ l := by
  induction fuel generalizing l i with
  | zero => exact h
  | succ fuel ih =>
    rw [exchOuterFuel] at h
    by_cases hi : i + 1 < l.length
    · rw [if_pos hi] at h
      exact mem_exchInnerFuel (ih h)
    · rw [if_neg hi] at h
      exact h

lemma mem_sortByScoreDesc {α : Type} {score : α → ℚ} {l : List α} {c : α}
    (h : c ∈ sortByScoreDesc score l) : c ∈ l :=
  mem_exchOuterFuel h

lemma sortByScoreDesc_pair {α : Type} (score : α → ℚ) (x y : α) :
    sortByScoreDesc score [x, y] = if score x < score y then [y, x] else [x, y] := by
  have step : sortByScoreDesc score [x, y]
      = exchOuterFuel score 1 (exchInnerFuel score 1 (exchSwap score [x, y] 0 1) 0 2) 1 := rfl
  have e1 : exchSwap score [x, y] 0 1 = if score x < score y then [y, x] else [x, y] := by
    rw [exchSwap, dif_pos (⟨by norm_num, by norm_num⟩ :
      0 < ([x, y] : List α).length ∧ 1 < ([x, y] : List α).length)]
    split
    · rename_i h2
      rw [if_pos (show score x < score y from h2)]
      rfl
    · rename_i h2
      rw [if_neg (show ¬score x < score y from h2)]
  by_cases h : score x < score y
  · rw [if_pos h]
    rw [if_pos h] at e1
    rw [step, e1]
    rfl
  · rw [if_neg h]
    rw [if_neg h] at e1
    rw [step, e1]
    rfl

/-- C5: every entry produced by `GetPopularArticles` carries the score
views×1 + likes×3 + comments×5 of its own counters; concretely,
(views=10, likes=2, comments=1) scores 21, (views=0, likes=0,
comments=4) scores 20, and the first is ranked above the second even
when the fetch returned it second. -/
theorem claim_C5_popularity (limit : ℤ) (articles : List ArticleCounters) :
    (∀ e ∈ getPopularArticles limit articles,
      e.score = (e.viewCount : ℚ) * 1 + (e.likeCount : ℚ) * 3 + (e.commentCount : ℚ) * 5)
    ∧ (mkPopular ⟨1, 10, 2, 1, none⟩).score = 21
    ∧ (mkPopular ⟨2, 0, 0, 4, none⟩).score = 20
    ∧ getPopularArticles 10 [⟨2, 0, 0, 4, none⟩, ⟨1, 10, 2, 1, none⟩]
      = [mkPopular ⟨1, 10, 2, 1, none⟩, mkPopular ⟨2, 0, 0, 4, none⟩] := by
  have hcomp : (mkPopular ⟨2, 0, 0, 4, none⟩).score < (mkPopular ⟨1, 10, 2, 1, none⟩).score := by
    rw [mkPopular, mkPopular]
    norm_num
  refine ⟨?_, by rw [mkPopular]; norm_num, by rw [mkPopular]; norm_num, ?_⟩
  · intro e he
    have hmem : e ∈ articles.map mkPopular := by
      rw [getPopularArticles] at he
      by_cases hlim : (if limit ≤ 0 then (10 : ℤ) else limit)
          < ((sortByScoreDesc PopularArticle.score (articles.map mkPopular)).length : ℤ)
      · rw [if_pos hlim] at he
        exact mem_sortByScoreDesc (List.mem_of_mem_take he)
      · rw [if_neg hlim] at he
        exact mem_sortByScoreDesc he
    rcases List.mem_map.1 hmem with ⟨a, _, rfl⟩
    rw [mkPopular]
    ring
  · have hstep : getPopularArticles 10 [⟨2, 0, 0, 4, none⟩, ⟨1, 10, 2, 1, none⟩]
        = if (10 : ℤ) < ((sortByScoreDesc PopularArticle.score
              [mkPopular ⟨2, 0, 0, 4, none⟩, mkPopular ⟨1, 10, 2, 1, none⟩]).length : ℤ)
          then (sortByScoreDesc PopularArticle.score
              [mkPopular ⟨2, 0, 0, 4, none⟩, mkPopular ⟨1, 10, 2, 1, none⟩]).take 10
          else sortByScoreDesc PopularArticle.score
              [mkPopular ⟨2, 0, 0, 4, none⟩, mkPopular ⟨1, 10, 2, 1, none⟩] := rfl
    rw [hstep, sortByScoreDesc_pair, if_pos hcomp, if_neg (by norm_num)]

/-- Witness for C5 at a concrete list and element. -/
theorem claim_C5_popularity_witness :
    (mkPopular ⟨1, 10, 2, 1, none⟩).score
      = ((mkPopular ⟨1, 10, 2, 1, none⟩).viewCount : ℚ) * 1
        + ((mkPopular ⟨1, 10, 2, 1, none⟩).likeCount : ℚ) * 3
        + ((mkPopular ⟨1, 10, 2, 1, none⟩).commentCount : ℚ) * 5 :=
  (claim_C5_popularity 10 [⟨1, 10, 2, 1, none⟩]).1 (mkPopular ⟨1, 10, 2, 1, none⟩)
    (show mkPopular ⟨1, 10, 2, 1, none⟩ ∈ [mkPopular ⟨1, 10, 2, 1, none⟩] from
      List.mem_singleton.2 rfl)

/-- C4 (amended): an article never published, or published at or before
the cutoff `now - windowDays`, is excluded entirely from
`GetTrendingArticles` — the window check `PublishedAt.After(cutoff)` is
strict, so an article published exactly `windowDays` days before the
query time is also excluded rather than scored at ½ of its base score —
while an article published strictly inside the window is scored
base × windowDays/(windowDays + daysSincePublished), i.e. the factor
`1/(1 + daysSince/windowDays)` of the spec, which tends to ½ at the
window edge; every returned entry arises from a fetched article through
exactly this scoring. -/
theorem claim_C4_trending (limit days : ℤ) (now : ℚ) (articles : List ArticleCounters)
    (hd : 0 < days) :
    (∀ a : ArticleCounters, a.publishedAt = none → trendingFilter days now a = none)
    ∧ (∀ (a : ArticleCounters) (p : ℚ), a.publishedAt = some p →
        p ≤ now - (days : ℚ) → trendingFilter days now a = none)
    ∧ (∀ (a : ArticleCounters) (p : ℚ), a.publishedAt = some p →
        now - (days : ℚ) < p →
        trendingFilter days now a
          = some ⟨a.id, a.viewCount, a.likeCount, a.commentCount,
              ((a.viewCount : ℚ) + (a.likeCount : ℚ) * 3 + (a.commentCount : ℚ) * 5)
                * ((days : ℚ) / ((days : ℚ) + (now - p)))⟩)
    ∧ (∀ e ∈ getTrendingArticles limit days now articles,
        ∃ a ∈ articles, trendingFilter days now a = some e) := by
  have hdd : (if days ≤ 0 then (7 : ℤ) else days) = days := if_neg (by omega)
  have hdq : ((days : ℤ) : ℚ) ≠ 0 := by
    rw [Int.cast_ne_zero]
    omega
  refine ⟨?_, ?_, ?_, ?_⟩
  · intro a ha
    rw [trendingFilter]
    simp only [hdd, ha]
  · intro a p ha hp
    rw [trendingFilter]
    simp only [hdd, ha]
    rw [if_neg (by push_neg; linarith)]
  · intro a p ha hp
    rw [trendingFilter]
    simp only [hdd, ha]
    rw [if_pos hp]
    refine congrArg some ?_
    refine congrArg _ ?_
    by_cases hz : (days : ℚ) + (now - p) = 0
    · have h1 : 1 + (now - p) / (days : ℚ) = 0 := by
        field_simp
        linarith
      rw [h1, hz]
      simp
    · have h1 : 1 + (now - p) / (days : ℚ) = ((days : ℚ) + (now - p)) / (days : ℚ) := by
        field_simp
      rw [h1, one_div_div]
  · intro e he
    have hmem : e ∈ articles.filterMap (trendingFilter days now) := by
      rw [getTrendingArticles] at he
      by_cases hlim : (if limit ≤ 0 then (10 : ℤ) else limit)
          < ((sortByScoreDesc TrendingArticle.trendingScore
              (articles.filterMap (trendingFilter days now))).length : ℤ)
      · rw [if_pos hlim] at he
        exact mem_sortByScoreDesc (List.mem_of_mem_take he)
      · rw [if_neg hlim] at he
        exact mem_sortByScoreDesc he
    rcases List.mem_filterMap.1 hmem with ⟨a, ha, hfa⟩
    exact ⟨a, ha, hfa⟩

/-- Witness for C4: a never-published article is excluded. -/
theorem claim_C4_trending_witness :
    trendingFilter 7 7 ⟨1, 10, 2, 1, none⟩ = none :=
  (claim_C4_trending 10 7 7 [] (by decide)).1 ⟨1, 10, 2, 1, none⟩ rfl

/-- C4 counterexample: an article published exactly `windowDays = 7` days
before the query time (base weighted score 21) is excluded entirely — the
result is empty even though the limit is 10 — whereas the claim requires
it to appear with trending score 21/2. -/
theorem claim_C4_counterexample :
    getTrendingArticles 10 7 7 [⟨1, 10, 2, 1, some 0⟩] = [] := by
  have hf : trendingFilter 7 7 ⟨1, 10, 2, 1, some 0⟩ = none := by
    rw [trendingFilter]
    norm_num
  have hl : List.filterMap (trendingFilter 7 7) [(⟨1, 10, 2, 1, some 0⟩ : ArticleCounters)]
      = [] := by
    simp [hf]
  show (if (10 : ℤ) < ((sortByScoreDesc TrendingArticle.trendingScore
        (List.filterMap (trendingFilter 7 7)
          [(⟨1, 10, 2, 1, some 0⟩ : ArticleCounters)])).length : ℤ)
      then (sortByScoreDesc TrendingArticle.trendingScore
        (List.filterMap (trendingFilter 7 7)
          [(⟨1, 10, 2, 1, some 0⟩ : ArticleCounters)])).take (10 : ℤ).toNat
      else sortByScoreDesc TrendingArticle.trendingScore
        (List.filterMap (trendingFilter 7 7)
          [(⟨1, 10, 2, 1, some 0⟩ : ArticleCounters)])) = []
  rw [hl]
  rfl

/-! ## Search orchestrator
(src/internal/services/search_service.go: Search lines 67-141,
sanitizeQuery lines 236-253, prepareBooleanQuery lines 256-276).
Go regexp `\w` is ASCII `[0-9A-Za-z_]`, regexp `\s` is `[\t\n\f\r ]`,
and `strings.TrimSpace` trims `unicode.IsSpace` characters (modelled by
their ASCII part, which is what the claims exercise). -/

/-- Go regexp `\w`: ASCII word characters. -/
def isWordChar (c : Char) : Bool :=
  (('a' ≤ c) && (c ≤ 'z')) || (('A' ≤ c) && (c ≤ 'Z'))
    || (('0' ≤ c) && (c ≤ '9')) || c == '_'

/-- Go regexp `\s`: space, tab, newline, form feed, carriage return. -/
def isGoRegexSpace (c : Char) : Bool :=
  c == ' ' || c == '\t' || c == '\n' || c == Char.ofNat 12 || c == '\r'

/-- ASCII part of `unicode.IsSpace`, used by `strings.TrimSpace` and
`strings.Fields`. -/
def isGoSpace (c : Char) : Bool :=
  c == ' ' || c == '\t' || c == '\n' || c == Char.ofNat 11 || c == Char.ofNat 12 || c == '\r'

/-- The sanitizer allow-list `[\w\s\-\.\,\!\?\:\;\(\)\[\]\"\']`. -/
def isSanAllowed (c : Char) : Bool :=
  isWordChar c || isGoRegexSpace c || c == '-' || c == '.' || c == ',' || c == '!'
    || c == '?' || c == ':' || c == ';' || c == '(' || c == ')' || c == '['
    || c == ']' || c == Char.ofNat 34 || c == Char.ofNat 39

/-- Embedding of `sanitizeQuery`: trim, collapse whitespace runs to one
space, replace runs of disallowed characters by one space, trim again. -/
def sanitizeQueryList (q : List Char) : List Char :=
  let q1 := trimBy isGoSpace q
  let q2 := replaceRuns isGoRegexSpace ' ' q1
  let q3 := replaceRuns (fun c => !(isSanAllowed c)) ' ' q2
  trimBy isGoSpace q3

def sanitizeQuery (q : String) : String :=
  ⟨sanitizeQueryList q.toList⟩

/-- Embedding of `strings.Fields`: split on runs of whitespace. -/
def goFieldsAux : List Char → List Char → List (List Char)
  | acc, [] => if acc.isEmpty then [] else [acc.reverse]
  | acc, c :: t =>
    if isGoSpace c then
      if acc.isEmpty then goFieldsAux [] t else acc.reverse :: goFieldsAux [] t
    else goFieldsAux (c :: acc) t

def goFields (l : List Char) : List (List Char) :=
  goFieldsAux [] l

/-- The boolean-operator cutset `"+-<>()~*\""` of `strings.Trim` in
`prepareBooleanQuery`. -/
def isBoolOp (c : Char) : Bool :=
  c == '+' || c == '-' || c == '<' || c == '>' || c == '(' || c == ')'
    || c == '~' || c == '*' || c == Char.ofNat 34

/-- Embedding of `strings.Join(words, " ")`. -/
def joinSpace : List (List Char) → List Char
  | [] => []
  | [w] => w
  | w :: ws => w ++ ' ' :: joinSpace ws

/-- The token list `booleanTerms` built by `prepareBooleanQuery`: each
whitespace-separated word with leading and trailing operator characters
trimmed, empty results dropped. -/
def booleanTerms (q : List Char) : List (List Char) :=
  ((goFields q).map (trimBy isBoolOp)).filter (fun w => !w.isEmpty)

/-- Embedding of `prepareBooleanQuery` (lines 256-276). -/
def prepareBooleanQueryList (q : List Char) : List Char :=
  if (goFields q).isEmpty then q
  else joinSpace (booleanTerms q)

def prepareBooleanQuery (q : String) : String :=
  ⟨prepareBooleanQueryList q.toList⟩

/-- Embedding of the query path of `Search` up to the delegation to the
full-text engine (lines 67-118): request validation on the query and
mode, sanitization, rejection of empty-after-sanitization queries, and
the boolean-mode token rebuild.  The returned string is the query handed
to the repository (`SearchWithBoolean` or `AdvancedSearch`); the filter
and pagination handling is orthogonal to claims C7 and C8 and is not
modelled. -/
def searchPrepare (query : String) (mode : String) : Except String String :=
  if trimBy isGoSpace query.toList = [] then Except.error "search query is required"
  else if 255 < query.length then
    Except.error "search query must be less than 255 characters"
  else if mode ≠ "" ∧ mode ≠ "natural" ∧ mode ≠ "boolean" then
    Except.error "search mode must be natural or boolean"
  else
    let q := sanitizeQuery query
    if q = "" then Except.error "search query cannot be empty after sanitization"
    else if mode = "boolean" then Except.ok (prepareBooleanQuery q)
    else Except.ok q

deriving instance DecidableEq for Except

/-- Head character of a token is a boolean operator (false on empty). -/
def headIsBoolOp (w : List Char) : Bool :=
  match w.head? with
  | some c => isBoolOp c
  | none => false

/-- Last character of a token is a boolean operator (false on empty). -/
def lastIsBoolOp (w : List Char) : Bool :=
  match w.getLast? with
  | some c => isBoolOp c
  | none => false

lemma dropWhileEnd_eq_nil_iff {p : Char → Bool} {l : List Char} :
    dropWhileEnd p l = [] ↔ ∀ c ∈ l, p c = true := by
  induction l with
  | nil => simp [dropWhileEnd]
  | cons x t ih =>
    rw [dropWhileEnd]
    by_cases hc : (dropWhileEnd p t).isEmpty && p x
    · rw [if_pos hc]
      simp only [Bool.and_eq_true, List.isEmpty_iff] at hc
      simp only [true_iff]
      intro c hcm
      rcases List.mem_cons.1 hcm with h1 | h1
      · exact h1 ▸ hc.2
      · exact ih.1 hc.1 c h1
    · rw [if_neg hc]
      simp only [Bool.and_eq_true, List.isEmpty_iff] at hc
      constructor
      · intro h
        exact absurd h (List.cons_ne_nil _ _)
      · intro h
        exact absurd ⟨ih.2 fun c hcm => h c (List.mem_cons_of_mem _ hcm),
          h x (List.mem_cons_self _ _)⟩ hc

lemma trimBy_eq_nil_of_all {p : Char → Bool} {l : List Char}
    (h : ∀ c ∈ l, p c = true) : trimBy p l = [] := by
  rw [trimBy, List.dropWhile_eq_nil_iff.2 h]
  rfl

lemma trimBy_ne_nil {p : Char → Bool} {l : List Char} {c : Char}
    (hc : c ∈ l) (hp : p c = false) : trimBy p l ≠ [] := by
  rw [trimBy]
  intro h
  have h2 := dropWhileEnd_eq_nil_iff.1 h
  have h3 : l.dropWhile p ≠ [] := by
    intro h4
    have := List.dropWhile_eq_nil_iff.1 h4 c hc
    rw [hp] at this
    exact Bool.false_ne_true this
  rcases hh : (l.dropWhile p).head? with _ | c0
  · exact h3 (List.head?_eq_none_iff.1 hh)
  · have hp0 := head?_dropWhile_eq hh
    have hm0 : c0 ∈ l.dropWhile p := List.mem_of_mem_head? hh
    have := h2 c0 hm0
    rw [hp0] at this
    exact Bool.false_ne_true this

lemma mem_trimBy {p : Char → Bool} {l : List Char} {c : Char}
    (h : c ∈ trimBy p l) : c ∈ l :=
  (List.dropWhile_suffix p).mem (mem_dropWhileEnd h)

/-- C7 (amended): a query consisting only of whitespace and characters
outside the sanitizer allow-list (at least one of them not whitespace,
so that request validation passes, and at most 255 characters long)
sanitizes to the empty string, and `Search` rejects it with the
empty-after-sanitization validation error instead of delegating to the
text-search engine.  The unamended claim fails because the allow-list
keeps the punctuation `- . , ! ? : ; ( ) [ ] " '`: a query of only such
punctuation, e.g. `...`, survives sanitization unchanged and is
delegated. -/
theorem claim_C7_punctuation_query (query mode : String)
    (hne : ∃ c ∈ query.toList, isGoSpace c = false)
    (hall : ∀ c ∈ query.toList, isSanAllowed c = false ∨ isGoRegexSpace c = true)
    (hlen : query.length ≤ 255)
    (hmode : mode = "" ∨ mode = "natural" ∨ mode = "boolean") :
    sanitizeQuery query = ""
    ∧ searchPrepare query mode
      = Except.error "search query cannot be empty after sanitization" := by
  have hall2 : ∀ c ∈ replaceRuns (fun c => !(isSanAllowed c)) ' '
      (replaceRuns isGoRegexSpace ' ' (trimBy isGoSpace query.toList)), c = ' ' := by
    intro c hc
    rcases mem_replaceRunsAux hc with h1 | ⟨h1, h2⟩
    · exact h1
    · rcases mem_replaceRunsAux h2 with h3 | ⟨h3, h4⟩
      · exact h3
      · exfalso
        have h1b : isSanAllowed c = true := by
          revert h1
          cases isSanAllowed c <;> simp
        rcases hall c (mem_trimBy h4) with h5 | h5
        · rw [h1b] at h5
          simp at h5
        · rw [h3] at h5
          exact Bool.false_ne_true h5
  have hnil : sanitizeQueryList query.toList = [] :=
    trimBy_eq_nil_of_all fun c hcm => by rw [hall2 c hcm]; rfl
  have hempty : sanitizeQuery query = "" := by
    show (⟨sanitizeQueryList query.toList⟩ : String) = ⟨[]⟩
    rw [hnil]
  refine ⟨hempty, ?_⟩
  rcases hne with ⟨c0, hc0, hp0⟩
  rw [searchPrepare, if_neg (trimBy_ne_nil hc0 hp0), if_neg (by omega),
    if_neg (by rcases hmode with h | h | h <;> simp [h])]
  simp only [hempty]
  rw [if_pos trivial]

/-- Witness for C7: the query `@#` (punctuation outside the allow-list)
in natural mode. -/
theorem claim_C7_punctuation_query_witness :
    sanitizeQuery "@#" = ""
    ∧ searchPrepare "@#" "natural"
      = Except.error "search query cannot be empty after sanitization" :=
  claim_C7_punctuation_query "@#" "natural" (by decide) (by decide) (by decide)
    (Or.inr (Or.inl rfl))

/-- C7 counterexample: the query `...` consists only of punctuation (no
letters or digits), yet it sanitizes to itself — `.` is on the
sanitizer's allow-list — and `Search` accepts it and delegates it to the
text-search engine instead of rejecting it. -/
theorem claim_C7_counterexample :
    sanitizeQuery "..." = "..."
    ∧ searchPrepare "..." "natural" = Except.ok "..." := by
  decide

/-- C8 (amended): in boolean mode the submitted query is rebuilt by
joining the whitespace-separated tokens after `strings.Trim`ming the
boolean-operator characters `+ - < > ( ) ~ * "` from both ends of each
token and dropping tokens that become empty: every submitted token is
nonempty and neither starts nor ends with an operator character.
Operator characters in the interior of a token are NOT removed, which
refutes the unamended claim. -/
theorem claim_C8_boolean_strip (q : String) :
    ((goFields q.toList).isEmpty = false →
      prepareBooleanQuery q = ⟨joinSpace (booleanTerms q.toList)⟩)
    ∧ (∀ w ∈ booleanTerms q.toList,
        w ≠ [] ∧ headIsBoolOp w = false ∧ lastIsBoolOp w = false) := by
  constructor
  · intro h
    rw [prepareBooleanQuery, prepareBooleanQueryList,
      if_neg (show ¬(goFields q.toList).isEmpty = true by rw [h]; simp)]
  · intro w hw
    rcases List.mem_filter.1 hw with ⟨hmap, hne⟩
    have hwne : w ≠ [] := by simpa using hne
    rcases List.mem_map.1 hmap with ⟨w0, _, rfl⟩
    refine ⟨hwne, ?_, ?_⟩
    · rw [headIsBoolOp]
      rcases hh : (trimBy isBoolOp w0).head? with _ | c
      · rfl
      · exact head?_dropWhile_eq (head?_dropWhileEnd hh)
    · rw [lastIsBoolOp]
      rcases hh : (trimBy isBoolOp w0).getLast? with _ | c
      · rfl
      · exact getLast?_dropWhileEnd hh

/-- Witness for C8 at the query `+go`: the single submitted token is
`go`, nonempty and operator-free at both ends. -/
theorem claim_C8_boolean_strip_witness :
    (['g', 'o'] : List Char) ≠ []
    ∧ headIsBoolOp ['g', 'o'] = false
    ∧ lastIsBoolOp ['g', 'o'] = false :=
  (claim_C8_boolean_strip "+go").2 ['g', 'o'] (by decide)

/-- C8 counterexample: the sanitized boolean query `a-b` (its own
sanitization) is resubmitted verbatim as the single token `a-b`, which
still contains the boolean operator `-` in its interior, contradicting
the claim that no submitted token contains any operator character. -/
theorem claim_C8_counterexample :
    sanitizeQuery "a-b" = "a-b"
    ∧ prepareBooleanQuery "a-b" = "a-b"
    ∧ ['a', '-', 'b'] ∈ booleanTerms ("a-b" : String).toList
    ∧ '-' ∈ (['a', '-', 'b'] : List Char)
    ∧ isBoolOp '-' = true := by
  decide


/-! ## Tag resolver
(src/internal/services/tag_service.go: Create lines 38-70,
FindOrCreateByName lines 102-121, ProcessTagNames lines 158-183).  The
tag repository is modelled as the list of persisted tags threaded
through the operations; `GetByName`/`GetBySlug` are list lookups and
`Create` appends.  Error message texts are abbreviated where the Go code
interpolates the offending name. -/

structure Tag where
  name : String
  slug : String
deriving DecidableEq

structure TagStore where
  tags : List Tag
deriving DecidableEq

def getTagByName (s : TagStore) (n : String) : Option Tag :=
  s.tags.find? (fun t => t.name == n)

def getTagBySlug (s : TagStore) (sl : String) : Option Tag :=
  s.tags.find? (fun t => t.slug == sl)

/-- Embedding of `TagService.Create`: validate, reject an existing name,
allocate a unique slug, persist. -/
def tagCreate (s : TagStore) (reqName : String) : Except String (Tag × TagStore) :=
  if trimBy isGoSpace reqName.toList = [] then Except.error "tag name is required"
  else if 50 < reqName.length then Except.error "tag name must be less than 50 characters"
  else
    match getTagByName s ⟨trimBy isGoSpace reqName.toList⟩ with
    | some _ => Except.error "tag already exists"
    | none =>
      match generateUniqueSlug ⟨trimBy isGoSpace reqName.toList⟩
          (fun sl => (getTagBySlug s sl).isSome) with
      | Except.error e => Except.error e
      | Except.ok slug =>
        Except.ok ({ name := ⟨trimBy isGoSpace reqName.toList⟩, slug := slug },
          { tags := s.tags ++ [{ name := ⟨trimBy isGoSpace reqName.toList⟩, slug := slug }] })

/-- Embedding of `TagService.FindOrCreateByName`. -/
def findOrCreateByName (s : TagStore) (name : String) : Except String (Tag × TagStore) :=
  if (⟨trimBy isGoSpace name.toList⟩ : String) = "" then
    Except.error "tag name cannot be empty"
  else
    match getTagByName s ⟨trimBy isGoSpace name.toList⟩ with
    | some t => Except.ok (t, s)
    | none => tagCreate s ⟨trimBy isGoSpace name.toList⟩

/-- The loop of `ProcessTagNames`: `processed` is the `processedNames`
set (in first-seen order) and `acc` the tag list built so far. -/
def processTagNamesLoop :
    TagStore → List String → List String → List Tag → Except String (List Tag × TagStore)
  | s, [], _, acc => Except.ok (acc, s)
  | s, n :: rest, processed, acc =>
    if (⟨trimBy isGoSpace n.toList⟩ : String) = "" then
      processTagNamesLoop s rest processed acc
    else if processed.contains ⟨trimBy isGoSpace n.toList⟩ then
      processTagNamesLoop s rest processed acc
    else
      match findOrCreateByName s ⟨trimBy isGoSpace n.toList⟩ with
      | Except.error e => Except.error ("failed to process tag: " ++ e)
      | Except.ok (t, s2) =>
        processTagNamesLoop s2 rest (processed ++ [⟨trimBy isGoSpace n.toList⟩]) (acc ++ [t])

/-- Embedding of `TagService.ProcessTagNames`. -/
def processTagNames (s : TagStore) (names : List String) :
    Except String (List Tag × TagStore) :=
  processTagNamesLoop s names [] []

lemma dropWhile_eq_self_of_head {p : Char → Bool} {l : List Char}
    (h : ∀ c, l.head? = some c → p c = false) : l.dropWhile p = l := by
  cases l with
  | nil => rfl
  | cons x t =>
    rw [List.dropWhile_cons, if_neg (by rw [h x rfl]; simp)]

lemma dropWhileEnd_eq_self_of_getLast {p : Char → Bool} {l : List Char}
    (h : ∀ c, l.getLast? = some c → p c = false) : dropWhileEnd p l = l := by
  induction l with
  | nil => rfl
  | cons x t ih =>
    rw [dropWhileEnd]
    cases t with
    | nil =>
      rw [if_neg (by rw [h x (by simp)]; simp)]
      rfl
    | cons y t2 =>
      have ih2 : dropWhileEnd p (y :: t2) = y :: t2 :=
        ih fun c hc => h c (by rw [List.getLast?_cons_cons]; exact hc)
      rw [if_neg (by rw [ih2]; simp)]
      rw [ih2]

lemma trimBy_idem {p : Char → Bool} (l : List Char) :
    trimBy p (trimBy p l) = trimBy p l := by
  have h1 : ∀ c, (trimBy p l).head? = some c → p c = false := fun c hc =>
    head?_dropWhile_eq (head?_dropWhileEnd hc)
  have h2 : ∀ c, (trimBy p l).getLast? = some c → p c = false := fun c hc =>
    getLast?_dropWhileEnd hc
  show dropWhileEnd p ((trimBy p l).dropWhile p) = trimBy p l
  rw [dropWhile_eq_self_of_head h1, dropWhileEnd_eq_self_of_getLast h2]

lemma getTagByName_name {s : TagStore} {n : String} {t : Tag}
    (h : getTagByName s n = some t) : t.name = n := by
  have h2 := List.find?_some h
  simpa using h2

lemma tagCreate_name {s : TagStore} {reqName : String} {t : Tag} {s2 : TagStore}
    (h : tagCreate s reqName = Except.ok (t, s2)) :
    t.name = (⟨trimBy isGoSpace reqName.toList⟩ : String) := by
  rw [tagCreate] at h
  split at h
  · exact absurd h (by simp)
  · split at h
    · exact absurd h (by simp)
    · split at h
      · exact absurd h (by simp)
      · split at h
        · exact absurd h (by simp)
        · simp only [Except.ok.injEq, Prod.mk.injEq] at h
          rw [← h.1]

lemma findOrCreateByName_name {s : TagStore} {name : String} {t : Tag} {s2 : TagStore}
    (h : findOrCreateByName s name = Except.ok (t, s2)) :
    t.name = (⟨trimBy isGoSpace name.toList⟩ : String) := by
  rw [findOrCreateByName] at h
  split at h
  · exact absurd h (by simp)
  · split at h
    · rename_i t0 hfind
      simp only [Except.ok.injEq, Prod.mk.injEq] at h
      rw [← h.1]
      exact getTagByName_name hfind
    · have h2 := tagCreate_name h
      rw [h2]
      show (⟨trimBy isGoSpace (trimBy isGoSpace name.toList)⟩ : String) = _
      rw [trimBy_idem]

lemma processTagNamesLoop_names :
    ∀ (rest : List String) (s : TagStore) (processed : List String) (acc : List Tag)
      (tags : List Tag) (s2 : TagStore),
      processTagNamesLoop s rest processed acc = Except.ok (tags, s2) →
      acc.map Tag.name = processed →
      processed.Nodup →
      (tags.map Tag.name).Nodup
      ∧ (∀ x ∈ processed, x ∈ tags.map Tag.name)
      ∧ (∀ n ∈ rest, (⟨trimBy isGoSpace n.toList⟩ : String) ≠ "" →
          (⟨trimBy isGoSpace n.toList⟩ : String) ∈ tags.map Tag.name) := by
  intro rest
  induction rest with
  | nil =>
    intro s processed acc tags s2 h hmap hnodup
    rw [processTagNamesLoop] at h
    simp only [Except.ok.injEq, Prod.mk.injEq] at h
    rw [← h.1, hmap]
    exact ⟨hnodup, fun x hx => hx, fun n hn => absurd hn (List.not_mem_nil n)⟩
  | cons n rest ih =>
    intro s processed acc tags s2 h hmap hnodup
    rw [processTagNamesLoop] at h
    by_cases h1 : (⟨trimBy isGoSpace n.toList⟩ : String) = ""
    · rw [if_pos h1] at h
      obtain ⟨ha, hb, hc⟩ := ih s processed acc tags s2 h hmap hnodup
      refine ⟨ha, hb, ?_⟩
      intro m hm hmne
      rcases List.mem_cons.1 hm with rfl | hm2
      · exact absurd h1 hmne
      · exact hc m hm2 hmne
    · rw [if_neg h1] at h
      by_cases h2 : processed.contains ⟨trimBy isGoSpace n.toList⟩
      · rw [if_pos h2] at h
        obtain ⟨ha, hb, hc⟩ := ih s processed acc tags s2 h hmap hnodup
        refine ⟨ha, hb, ?_⟩
        intro m hm hmne
        rcases List.mem_cons.1 hm with rfl | hm2
        · exact hb _ (List.elem_iff.1 h2)
        · exact hc m hm2 hmne
      · rw [if_neg h2] at h
        split at h
        · exact absurd h (by simp)
        · rename_i t0 s3 hfc
          have hname2 : t0.name = (⟨trimBy isGoSpace n.toList⟩ : String) := by
            rw [findOrCreateByName_name hfc]
            show (⟨trimBy isGoSpace (trimBy isGoSpace n.toList)⟩ : String) = _
            rw [trimBy_idem]
          have hmap2 : (acc ++ [t0]).map Tag.name
              = processed ++ [⟨trimBy isGoSpace n.toList⟩] := by
            rw [List.map_append, hmap]
            simp [hname2]
          have hnotmem : (⟨trimBy isGoSpace n.toList⟩ : String) ∉ processed := by
            intro hmem2
            exact h2 (List.elem_iff.2 hmem2)
          have hnodup2 : (processed ++ [(⟨trimBy isGoSpace n.toList⟩ : String)]).Nodup := by
            rw [List.nodup_append]
            exact ⟨hnodup, List.nodup_singleton _,
              fun x hx hx2 => hnotmem ((List.mem_singleton.1 hx2) ▸ hx)⟩
          obtain ⟨ha, hb, hc⟩ := ih s3 _ _ tags s2 h hmap2 hnodup2
          refine ⟨ha, fun x hx => hb x (List.mem_append_left _ hx), ?_⟩
          intro m hm hmne
          rcases List.mem_cons.1 hm with rfl | hm2
          · exact hb _ (List.mem_append_right _ (List.mem_singleton.2 rfl))
          · exact hc m hm2 hmne

/-- C9: if a batch processed by `ProcessTagNames` succeeds and contains
the same (whitespace-trimmed, case-sensitive) non-empty name more than
once, the returned tag list contains exactly one tag bearing that
name. -/
theorem claim_C9_tag_dedup (s : TagStore) (names : List String) (tags : List Tag)
    (s2 : TagStore) (name : String)
    (hok : processTagNames s names = Except.ok (tags, s2))
    (hname : name ≠ "")
    (hocc : 2 ≤ ((names.map fun n => (⟨trimBy isGoSpace n.toList⟩ : String)).count name)) :
    (tags.map Tag.name).count name = 1 := by
  obtain ⟨hnodup, hsub, hmem⟩ :=
    processTagNamesLoop_names names s [] [] tags s2 hok rfl List.nodup_nil
  have hpos : 0 < ((names.map fun n => (⟨trimBy isGoSpace n.toList⟩ : String)).count name) := by
    omega
  have hx : name ∈ names.map fun n => (⟨trimBy isGoSpace n.toList⟩ : String) :=
    List.count_pos_iff.1 hpos
  rcases List.mem_map.1 hx with ⟨n, hn, htrim⟩
  have hfin : name ∈ tags.map Tag.name := by
    rw [← htrim]
    exact hmem n hn (by rw [htrim]; exact hname)
  exact List.count_eq_one_of_mem hnodup hfin

/-- Witness for C9: the batch `["go", "go"]` against an empty store
yields exactly one tag named `go`. -/
theorem claim_C9_tag_dedup_witness :
    (([⟨"go", "go"⟩] : List Tag).map Tag.name).count "go" = 1 :=
  claim_C9_tag_dedup ⟨[]⟩ ["go", "go"] [⟨"go", "go"⟩] ⟨[⟨"go", "go"⟩]⟩ "go"
    (by decide) (by decide) (by decide)

/-! ## Archive aggregator
(src/unnamed/part_001 lines 222-282, `articleRepository.GetArchive`, and
src/internal/services/category_service.go lines 283-358,
`ArchiveService.GetArchive`).  The raw SQL — grouping the published,
non-deleted articles by `YEAR(published_at)`, `MONTH(published_at)` with
counts, ordered year then month descending — executes in the database;
it is modelled from its text by `sqlArchiveRows`.  The repository then
buckets the rows into a Go map keyed by year and iterates that map to
build the year list; Go map iteration order is unspecified, so it is
modelled by the explicit parameter `yearOrder`, constrained to be a
permutation of the distinct years. -/

structure ArchArticle where
  published : Bool
  publishedYM : Option (ℕ × ℕ)
  deleted : Bool
deriving DecidableEq

structure ArchiveRow where
  year : ℕ
  month : ℕ
  count : ℕ
deriving DecidableEq

/-- The `(year, month)` keys of the rows the SQL query aggregates: one
entry per published, non-deleted article with a non-null publish date. -/
def archFiltered (arts : List ArchArticle) : List (ℕ × ℕ) :=
  arts.filterMap fun a =>
    if a.published && !a.deleted then a.publishedYM else none

/-- Descending lexicographic order on `(year, month)`:
`ORDER BY year DESC, month DESC`. -/
def ymGe (a b : ℕ × ℕ) : Bool :=
  decide (b.1 < a.1) || (a.1 == b.1 && decide (b.2 ≤ a.2))

def insertYMDesc (x : ℕ × ℕ) : List (ℕ × ℕ) → List (ℕ × ℕ)
  | [] => [x]
  | y :: t => if ymGe x y then x :: y :: t else y :: insertYMDesc x t

def sortYMDesc (l : List (ℕ × ℕ)) : List (ℕ × ℕ) :=
  l.foldr insertYMDesc []

/-- Modelled from the spec and the SQL text (the query itself runs in
the database, outside src/): one row per distinct `(year, month)` of the
filtered articles, with the number of such articles as count, ordered
year descending then month descending. -/
def sqlArchiveRows (arts : List ArchArticle) : List ArchiveRow :=
  (sortYMDesc (archFiltered arts).dedup).map fun ym =>
    { year := ym.1, month := ym.2, count := (archFiltered arts).count ym }

/-- The distinct years of the rows, i.e. the key set of the Go map
`yearMap` built by `articleRepository.GetArchive`. -/
def rowsYears (rows : List ArchiveRow) : List ℕ :=
  (rows.map ArchiveRow.year).dedup

/-- Embedding of the reshaping loop of `articleRepository.GetArchive`:
each row is appended to its year's bucket in row order, then the buckets
are emitted following the map iteration order `yearOrder`. -/
def repoGetArchive (rows : List ArchiveRow) (yearOrder : List ℕ) :
    List (ℕ × List (ℕ × ℕ)) :=
  yearOrder.map fun y =>
    (y, (rows.filter (fun r => r.year == y)).map fun r => (r.month, r.count))

structure ArchiveEntry where
  year : ℕ
  month : ℕ
  monthName : String
  articleCount : ℕ
deriving DecidableEq

structure ArchiveYear where
  year : ℕ
  months : List ArchiveEntry
  total : ℕ
deriving DecidableEq

structure ArchiveResponse where
  years : List ArchiveYear
  total : ℕ
deriving DecidableEq

/-- Embedding of `ArchiveService.getMonthName`. -/
def getMonthName (m : ℕ) : String :=
  if m < 1 || 12 < m then "Unknown"
  else ["", "January", "February", "March", "April", "May", "June", "July",
    "August", "September", "October", "November", "December"].getD m "Unknown"

/-- Embedding of `ArchiveService.GetArchive`: reshape the repository
data into the nested years → months → count structure with per-year and
overall totals. -/
def archiveServiceGetArchive (rows : List ArchiveRow) (yearOrder : List ℕ) :
    ArchiveResponse :=
  let ys := (repoGetArchive rows yearOrder).map fun ym =>
    { year := ym.1
      months := ym.2.map fun mc =>
        { year := ym.1, month := mc.1, monthName := getMonthName mc.1,
          articleCount := mc.2 }
      total := (ym.2.map Prod.snd).sum : ArchiveYear }
  { years := ys, total := (ys.map ArchiveYear.total).sum }

/-- The full pipeline from article snapshots to the archive response. -/
def getArchive (arts : List ArchArticle) (yearOrder : List ℕ) : ArchiveResponse :=
  archiveServiceGetArchive (sqlArchiveRows arts) yearOrder

lemma ymGe_iff {a b : ℕ × ℕ} :
    ymGe a b = true ↔ (b.1 < a.1 ∨ (a.1 = b.1 ∧ b.2 ≤ a.2)) := by
  rw [ymGe]
  simp [beq_iff_eq]

lemma ymGe_total (a b : ℕ × ℕ) : ymGe a b = true ∨ ymGe b a = true := by
  rw [ymGe_iff, ymGe_iff]
  omega

lemma ymGe_trans {a b c : ℕ × ℕ} (h1 : ymGe a b = true) (h2 : ymGe b c = true) :
    ymGe a c = true := by
  rw [ymGe_iff] at h1 h2 ⊢
  omega

lemma mem_insertYMDesc {x : ℕ × ℕ} {l : List (ℕ × ℕ)} {z : ℕ × ℕ}
    (h : z ∈ insertYMDesc x l) : z = x ∨ z ∈ l := by
  induction l with
  | nil => simpa [insertYMDesc] using h
  | cons y t ih =>
    rw [insertYMDesc] at h
    by_cases hxy : ymGe x y = true
    · rw [if_pos hxy] at h
      rcases List.mem_cons.1 h with rfl | h2
      · exact Or.inl rfl
      · exact Or.inr h2
    · rw [if_neg hxy] at h
      rcases List.mem_cons.1 h with rfl | h2
      · exact Or.inr (List.mem_cons_self _ _)
      · rcases ih h2 with h3 | h3
        · exact Or.inl h3
        · exact Or.inr (List.mem_cons_of_mem _ h3)

lemma pairwise_insertYMDesc {x : ℕ × ℕ} {l : List (ℕ × ℕ)}
    (h : List.Pairwise (fun a b => ymGe a b = true) l) :
    List.Pairwise (fun a b => ymGe a b = true) (insertYMDesc x l) := by
  induction l with
  | nil => simp [insertYMDesc]
  | cons y t ih =>
    rw [insertYMDesc]
    rcases List.pairwise_cons.1 h with ⟨hy, ht⟩
    by_cases hxy : ymGe x y = true
    · rw [if_pos hxy]
      refine List.pairwise_cons.2 ⟨?_, h⟩
      intro z hz
      rcases List.mem_cons.1 hz with rfl | hz2
      · exact hxy
      · exact ymGe_trans hxy (hy z hz2)
    · rw [if_neg hxy]
      refine List.pairwise_cons.2 ⟨?_, ih ht⟩
      intro z hz
      rcases mem_insertYMDesc hz with rfl | hz2
      · rcases ymGe_total z y with h3 | h3
        · exact absurd h3 hxy
        · exact h3
      · exact hy z hz2

lemma perm_insertYMDesc (x : ℕ × ℕ) (l : List (ℕ × ℕ)) :
    (insertYMDesc x l).Perm (x :: l) := by
  induction l with
  | nil => exact List.Perm.refl _
  | cons y t ih =>
    rw [insertYMDesc]
    by_cases hxy : ymGe x y = true
    · rw [if_pos hxy]
    · rw [if_neg hxy]
      exact (ih.cons y).trans (List.Perm.swap x y t)

lemma sortYMDesc_pairwise (l : List (ℕ × ℕ)) :
    List.Pairwise (fun a b => ymGe a b = true) (sortYMDesc l) := by
  induction l with
  | nil => simp [sortYMDesc]
  | cons x t ih => exact pairwise_insertYMDesc ih

lemma sortYMDesc_perm (l : List (ℕ × ℕ)) : (sortYMDesc l).Perm l := by
  induction l with
  | nil => exact List.Perm.refl _
  | cons x t ih => exact (perm_insertYMDesc x (sortYMDesc t)).trans (ih.cons x)

lemma getArchive_years_map (arts : List ArchArticle) (yearOrder : List ℕ) :
    (getArchive arts yearOrder).years.map ArchiveYear.year = yearOrder := by
  induction yearOrder with
  | nil => rfl
  | cons y t ih =>
    simp only [getArchive, archiveServiceGetArchive, repoGetArchive, List.map_cons,
      List.map_map] at ih ⊢
    exact List.cons.injEq _ _ _ _ ▸ ⟨rfl, ih⟩

lemma sqlArchiveRows_pairwise (arts : List ArchArticle) :
    List.Pairwise (fun r1 r2 : ArchiveRow =>
      r2.year < r1.year ∨ (r1.year = r2.year ∧ r2.month < r1.month))
      (sqlArchiveRows arts) := by
  have hnd : (sortYMDesc (archFiltered arts).dedup).Nodup :=
    ((sortYMDesc_perm _).nodup_iff).2 (List.nodup_dedup _)
  have hpw := sortYMDesc_pairwise (archFiltered arts).dedup
  have hcomb : List.Pairwise (fun a b => ymGe a b = true ∧ a ≠ b)
      (sortYMDesc (archFiltered arts).dedup) := hpw.and hnd
  rw [sqlArchiveRows]
  rw [List.pairwise_map]
  refine hcomb.imp ?_
  intro a b hab
  rcases hab with ⟨hge, hne⟩
  rw [ymGe_iff] at hge
  simp only
  rcases hge with h1 | ⟨h1, h2⟩
  · exact Or.inl h1
  · refine Or.inr ⟨h1, ?_⟩
    rcases Nat.lt_or_ge b.2 a.2 with h3 | h3
    · exact h3
    · exfalso
      exact hne (Prod.ext h1.symm (by omega)).symm

/-- C6 (amended): the archive response groups the published, non-deleted
articles by publish year and month with the months of each year in
descending order and each month's count equal to the number of such
articles published that month, and its year list is a permutation of the
distinct publish years — but the years appear in the unspecified
iteration order of the Go map used for bucketing, not necessarily
descending; the spec's single-year example comes out exactly as stated.
`yearOrder` models the map iteration order, constrained to a permutation
of the key set. -/
theorem claim_C6_archive (arts : List ArchArticle) (yearOrder : List ℕ)
    (hperm : yearOrder.Perm (rowsYears (sqlArchiveRows arts))) :
    (∀ yr ∈ (getArchive arts yearOrder).years,
      List.Chain' (fun a b => b.month < a.month) yr.months)
    ∧ (∀ yr ∈ (getArchive arts yearOrder).years, ∀ e ∈ yr.months,
        e.year = yr.year
        ∧ e.articleCount = (archFiltered arts).count (yr.year, e.month))
    ∧ (((getArchive arts yearOrder).years.map ArchiveYear.year).Perm
        (rowsYears (sqlArchiveRows arts)))
    ∧ getArchive
        [⟨true, some (2023, 1), false⟩, ⟨true, some (2023, 1), false⟩,
         ⟨true, some (2023, 2), false⟩] [2023]
      = ⟨[⟨2023, [⟨2023, 2, "February", 1⟩, ⟨2023, 1, "January", 2⟩], 3⟩], 3⟩ := by
  have hrows := sqlArchiveRows_pairwise arts
  refine ⟨?_, ?_, ?_, by decide⟩
  · intro yr hyr
    simp only [getArchive, archiveServiceGetArchive, repoGetArchive, List.map_map,
      List.mem_map] at hyr
    rcases hyr with ⟨y, hy, rfl⟩
    simp only [Function.comp]
    refine List.Pairwise.chain' ?_
    rw [List.pairwise_map, List.pairwise_map]
    have hfilter : List.Pairwise (fun r1 r2 : ArchiveRow =>
        r2.year < r1.year ∨ (r1.year = r2.year ∧ r2.month < r1.month))
        ((sqlArchiveRows arts).filter (fun r => r.year == y)) :=
      hrows.sublist (List.filter_sublist _)
    refine List.Pairwise.imp_of_mem ?_ hfilter
    intro r1 r2 h1 h2 hr
    have hy1 : r1.year = y := by simpa using (List.mem_filter.1 h1).2
    have hy2 : r2.year = y := by simpa using (List.mem_filter.1 h2).2
    rcases hr with h3 | ⟨h3, h4⟩
    · rw [hy1, hy2] at h3
      omega
    · exact h4
  · intro yr hyr e he
    simp only [getArchive, archiveServiceGetArchive, repoGetArchive, List.map_map,
      List.mem_map] at hyr
    rcases hyr with ⟨y, hy, rfl⟩
    simp only [Function.comp, List.mem_map, List.map_map] at he
    rcases he with ⟨r, hr, rfl⟩
    have hy1 : r.year = y := by simpa using (List.mem_filter.1 hr).2
    have hrmem : r ∈ sqlArchiveRows arts := (List.mem_filter.1 hr).1
    rw [sqlArchiveRows, List.mem_map] at hrmem
    rcases hrmem with ⟨ym, hym, rfl⟩
    refine ⟨rfl, ?_⟩
    show (archFiltered arts).count ym = (archFiltered arts).count (y, ym.2)
    rw [← hy1]
  · rw [getArchive_years_map]
    exact hperm

/-- Witness for C6: the spec's example, articles in 2023-01 (twice) and
2023-02 (once), with the single-year iteration order. -/
theorem claim_C6_archive_witness :
    getArchive
      [⟨true, some (2023, 1), false⟩, ⟨true, some (2023, 1), false⟩,
       ⟨true, some (2023, 2), false⟩] [2023]
      = ⟨[⟨2023, [⟨2023, 2, "February", 1⟩, ⟨2023, 1, "January", 2⟩], 3⟩], 3⟩ :=
  (claim_C6_archive
    [⟨true, some (2023, 1), false⟩, ⟨true, some (2023, 1), false⟩,
     ⟨true, some (2023, 2), false⟩] [2023] (List.Perm.refl _)).2.2.2

/-- C6 counterexample: with articles published in 2022-01 and 2023-01
and the (legitimate) map iteration order 2022 before 2023, the response
lists the years ascending, refuting the claimed year-descending order. -/
theorem claim_C6_counterexample :
    ([2022, 2023] : List ℕ).Perm
      (rowsYears (sqlArchiveRows
        [⟨true, some (2022, 1), false⟩, ⟨true, some (2023, 1), false⟩]))
    ∧ (getArchive [⟨true, some (2022, 1), false⟩, ⟨true, some (2023, 1), false⟩]
        [2022, 2023]).years.map ArchiveYear.year = [2022, 2023]
    ∧ ¬List.Chain' (fun a b => b < a) ([2022, 2023] : List ℕ) := by
  refine ⟨?_, by decide, by rw [List.chain'_pair]; omega⟩
  have : rowsYears (sqlArchiveRows
      [⟨true, some (2022, 1), false⟩, ⟨true, some (2023, 1), false⟩])
      = [2023, 2022] := by decide
  rw [this]
  exact List.Perm.swap 2023 2022 []
